import Mathlib

/-!
Shallow embedding of the dispatch-bidder auction engine (`auction.go`).

Modelling choices:
* Money (`float64` in the source) is embedded as `ℚ`; the specification
  treats all money comparisons (`<`, `>`, `<=`, `==`) as exact.
* `uuid.UUID` values are opaque identifiers, embedded as `Nat`.
* `time.Time` is embedded as `Nat`; `t1.Before(t2)` is `t1 < t2`.
* Go pointers (`*Bidder`) are embedded as addresses (`Nat`) into an
  explicit heap `Heap := Nat → Bidder`; an `Auction` stores the list of
  addresses of its bidders, and mutation through a pointer becomes a
  heap update at the corresponding address.
* Each call of `time.Now()` inside `PlaceBid` is modelled by reading an
  explicit clock `clock : Nat → Nat` at the index of that call (index 0
  for the triggering bid's timestamp, indices 1, 2, ... for the
  successive writes of the auto-increment sweep).
-/

namespace DispatchBidder

/-- Bidder record, after `type Bidder struct` in the source. -/
structure Bidder where
  id : Nat
  name : String
  startingBid : ℚ
  maxBid : ℚ
  currentBid : ℚ
  autoIncrement : ℚ
  lastBidTime : Nat
deriving DecidableEq, Repr

/-- The heap of bidder records: Go pointers become addresses. -/
abbrev Heap := Nat → Bidder

/-- Auction record, after `type Auction struct` in the source; the
`sync.RWMutex` field has no functional content and is omitted, and the
bidder pointers are the stored addresses. -/
structure Auction where
  id : Nat
  bidders : List Nat
deriving DecidableEq, Repr

/-- Errors returned by `PlaceBid`, one per early `return fmt.Errorf(...)`. -/
inductive BidError where
  | bidBelowStartingBid
  | bidAboveMaxBid
  | bidNotHigherThanCurrent
deriving DecidableEq, Repr

/-- Errors returned by `validateBidder`. -/
inductive BidderError where
  | invalidStartingBid
  | invalidMaxBid
  | invalidIncrement
deriving DecidableEq, Repr

/-- Errors returned by `validateAuctionData` (bidder errors are wrapped
with the offending bidder's identifier, as the source does with
`fmt.Errorf("invalid bidder data for bidder ID %s: %w", ...)`). -/
inductive AuctionError where
  | insufficientBidders
  | duplicateBidder (id : Nat)
  | invalidBidder (id : Nat) (e : BidderError)
deriving DecidableEq, Repr

/-- Heap update at one address (assignment through a Go pointer). -/
def heapSet (h : Heap) (p : Nat) (b : Bidder) : Heap :=
  fun a => if a = p then b else h a

/-- The auto-increment sweep of `PlaceBid`: the `for _, otherBidder :=
range a.Bidders` loop.  `bidID` is the triggering bidder's ID, `k` counts
the `time.Now()` calls already made by this `PlaceBid` call. -/
def sweep (clock : Nat → Nat) (bidID : Nat) : List Nat → Heap → Nat → Heap
  | [], h, _ => h
  | a :: rest, h, k =>
    if (h a).id ≠ bidID then
      if (h a).currentBid + (h a).autoIncrement ≤ (h a).maxBid then
        sweep clock bidID rest
          (heapSet h a
            { h a with
              currentBid := (h a).currentBid + (h a).autoIncrement
              lastBidTime := clock k })
          (k + 1)
      else
        sweep clock bidID rest h k
    else
      sweep clock bidID rest h k

/-- Embedding of `func (a *Auction) PlaceBid(bidder *Bidder, bidAmount
float64) error`.  `l` is the auction's stored bidder list (addresses), `p`
is the address of the `bidder` argument.  Returns the Go error (`none`
for `nil`) together with the heap after the call. -/
def PlaceBid (clock : Nat → Nat) (h : Heap) (l : List Nat) (p : Nat)
    (bidAmount : ℚ) : Option BidError × Heap :=
  if bidAmount < (h p).startingBid then
    (some BidError.bidBelowStartingBid, h)
  else if bidAmount > (h p).maxBid then
    (some BidError.bidAboveMaxBid, h)
  else if bidAmount ≤ (h p).currentBid then
    (some BidError.bidNotHigherThanCurrent, h)
  else
    (none,
      sweep clock (h p).id l
        (heapSet h p { h p with currentBid := bidAmount, lastBidTime := clock 0 }) 1)

/-- Embedding of `func isWinner(currentWinner, bidder *Bidder) bool`;
the `nil` pointer becomes `none`. -/
def isWinner (currentWinner : Option Bidder) (bidder : Bidder) : Bool :=
  match currentWinner with
  | none => true
  | some w =>
    decide (bidder.currentBid > w.currentBid) ||
      (decide (bidder.currentBid = w.currentBid) &&
        decide (bidder.lastBidTime < w.lastBidTime))

/-- Embedding of `func (a *Auction) DetermineWinner() *Bidder`: the scan
over the stored bidders (given here as the list of their records, i.e.
the addresses already dereferenced). -/
def DetermineWinner (bidders : List Bidder) : Option Bidder :=
  bidders.foldl (fun winner b => if isWinner winner b then some b else winner) none

/-- Embedding of `func validateBidder(b *Bidder) error`. -/
def validateBidder (b : Bidder) : Option BidderError :=
  if b.startingBid ≤ 0 then some BidderError.invalidStartingBid
  else if b.maxBid < b.startingBid then some BidderError.invalidMaxBid
  else if b.autoIncrement ≤ 0 then some BidderError.invalidIncrement
  else none

/-- The per-bidder loop of `validateAuctionData`: `seen` is the set of
IDs already recorded in the `seenIDs` map. -/
def checkBidders (h : Heap) (seen : List Nat) : List Nat → Option AuctionError
  | [] => none
  | a :: rest =>
    if (h a).id ∈ seen then some (AuctionError.duplicateBidder (h a).id)
    else
      match validateBidder (h a) with
      | some e => some (AuctionError.invalidBidder (h a).id e)
      | none => checkBidders h ((h a).id :: seen) rest

/-- Embedding of `func validateAuctionData(na NewAuctionConfig) error`. -/
def validateAuctionData (h : Heap) (bs : List Nat) : Option AuctionError :=
  if bs.length ≤ 1 then some AuctionError.insufficientBidders
  else checkBidders h [] bs

/-- Embedding of `func NewAuction(na NewAuctionConfig) (*Auction, error)`;
`nid` stands for the freshly generated `uuid.New()`. -/
def NewAuction (nid : Nat) (h : Heap) (bs : List Nat) : Except AuctionError Auction :=
  match validateAuctionData h bs with
  | some e => Except.error e
  | none => Except.ok { id := nid, bidders := bs }

/-- The per-bidder action of one pass of the auto-increment sweep with
the timestamp write erased: used to state what `sweep` does to each
address independently of the clock. -/
def tryInc (bidID : Nat) (o : Bidder) : Bidder :=
  if o.id ≠ bidID then
    if o.currentBid + o.autoIncrement ≤ o.maxBid then
      { o with currentBid := o.currentBid + o.autoIncrement }
    else o
  else o

/-- Forget a bidder's timestamp (project away the only field of the sweep
that depends on the clock). -/
def eraseTime (b : Bidder) : Bidder :=
  { b with lastBidTime := 0 }

/-- The construction-time validity of one bidder's parameters
(`validateBidder` succeeding, stated as a proposition). -/
def BidderValid (b : Bidder) : Prop :=
  0 < b.startingBid ∧ b.startingBid ≤ b.maxBid ∧ 0 < b.autoIncrement

instance (b : Bidder) : Decidable (BidderValid b) := by
  unfold BidderValid; infer_instance

/-- The running range invariant of one bidder. -/
def BidderInRange (b : Bidder) : Prop :=
  b.startingBid ≤ b.currentBid ∧ b.currentBid ≤ b.maxBid

instance (b : Bidder) : Decidable (BidderInRange b) := by
  unfold BidderInRange; infer_instance

theorem heapSet_same (h : Heap) (p : Nat) (b : Bidder) : heapSet h p b p = b := by
  simp [heapSet]

theorem heapSet_other (h : Heap) (p a : Nat) (b : Bidder) (hne : a ≠ p) :
    heapSet h p b a = h a := by
  simp [heapSet, hne]

/-- The sweep never touches an address that is not in the list it walks. -/
theorem sweep_not_mem (clock : Nat → Nat) (bidID : Nat) :
    ∀ (l : List Nat) (h : Heap) (k : Nat) (a : Nat), a ∉ l →
      sweep clock bidID l h k a = h a := by
  intro l
  induction l with
  | nil => intro h k a _; rfl
  | cons x rest ih =>
    intro h k a ha
    have hax : a ≠ x := fun e => ha (e ▸ List.mem_cons_self x rest)
    have harest : a ∉ rest := fun m => ha (List.mem_cons_of_mem x m)
    simp only [sweep]
    split
    · split
      · rw [ih _ _ _ harest, heapSet_other _ _ _ _ hax]
      · exact ih _ _ _ harest
    · exact ih _ _ _ harest

/-- Pointwise description of the sweep: up to its timestamp, the record at
address `a` after the sweep is obtained by applying the per-bidder action
`tryInc` once for each occurrence of `a` in the walked list, independently
of the clock and of all other addresses. -/
theorem sweep_count (clock : Nat → Nat) (bidID : Nat) :
    ∀ (l : List Nat) (h : Heap) (k : Nat) (a : Nat),
      eraseTime (sweep clock bidID l h k a) =
        (tryInc bidID)^[l.count a] (eraseTime (h a)) := by
  intro l
  induction l with
  | nil => intro h k a; rfl
  | cons x rest ih =>
    intro h k a
    by_cases hax : a = x
    · subst hax
      rw [List.count_cons_self, Function.iterate_succ_apply]
      simp only [sweep]
      split
      next hid =>
        split
        next hfit =>
          rw [ih, heapSet_same]
          congr 1
          simp [tryInc, eraseTime, hid, hfit]
        next hfit =>
          rw [ih]
          congr 1
          simp [tryInc, eraseTime, hid, hfit]
      next hid =>
        rw [ih]
        congr 1
        simp [tryInc, eraseTime, not_not.mp hid]
    · rw [List.count_cons_of_ne hax]
      simp only [sweep]
      split
      · split
        · rw [ih, heapSet_other _ _ _ _ hax]
        · rw [ih]
      · rw [ih]

/-- A record whose ID matches the triggering bidder's is left alone by the
per-bidder sweep action. -/
theorem tryInc_id_eq (bidID : Nat) (b : Bidder) (hb : b.id = bidID) :
    tryInc bidID b = b := by
  simp [tryInc, hb]

theorem tryInc_iterate_id_eq (bidID : Nat) (b : Bidder) (n : Nat) (hb : b.id = bidID) :
    (tryInc bidID)^[n] b = b :=
  Function.iterate_fixed (tryInc_id_eq bidID b hb) n

/-- The per-bidder sweep action changes only `currentBid`. -/
theorem tryInc_fields (bidID : Nat) (b : Bidder) :
    (tryInc bidID b).id = b.id ∧ (tryInc bidID b).name = b.name ∧
      (tryInc bidID b).startingBid = b.startingBid ∧
      (tryInc bidID b).maxBid = b.maxBid ∧
      (tryInc bidID b).autoIncrement = b.autoIncrement ∧
      (tryInc bidID b).lastBidTime = b.lastBidTime := by
  unfold tryInc
  split <;> [skip; simp]
  split <;> simp

theorem tryInc_iterate_fields (bidID : Nat) (b : Bidder) (n : Nat) :
    ((tryInc bidID)^[n] b).id = b.id ∧ ((tryInc bidID)^[n] b).name = b.name ∧
      ((tryInc bidID)^[n] b).startingBid = b.startingBid ∧
      ((tryInc bidID)^[n] b).maxBid = b.maxBid ∧
      ((tryInc bidID)^[n] b).autoIncrement = b.autoIncrement ∧
      ((tryInc bidID)^[n] b).lastBidTime = b.lastBidTime := by
  induction n with
  | zero => simp
  | succ n ih =>
    rw [Function.iterate_succ_apply']
    obtain ⟨e1, e2, e3, e4, e5, e6⟩ := tryInc_fields bidID ((tryInc bidID)^[n] b)
    rw [e1, e2, e3, e4, e5, e6]
    exact ih

/-- What the per-bidder sweep action does to `currentBid` when the ID
differs from the triggering bidder's. -/
theorem tryInc_currentBid (bidID : Nat) (b : Bidder) (hb : b.id ≠ bidID) :
    (tryInc bidID b).currentBid =
      if b.currentBid + b.autoIncrement ≤ b.maxBid then
        b.currentBid + b.autoIncrement
      else b.currentBid := by
  simp only [tryInc, if_pos hb]
  split <;> simp

/-- The per-bidder sweep action preserves validity, preserves the range
invariant and never decreases `currentBid`. -/
theorem tryInc_inv (bidID : Nat) (b : Bidder) (hv : BidderValid b) (hr : BidderInRange b) :
    BidderValid (tryInc bidID b) ∧ BidderInRange (tryInc bidID b) ∧
      b.currentBid ≤ (tryInc bidID b).currentBid := by
  obtain ⟨e1, e2, e3, e4, e5, e6⟩ := tryInc_fields bidID b
  refine ⟨?_, ?_, ?_⟩
  · rw [BidderValid, e3, e4, e5]; exact hv
  · rw [BidderInRange, e3, e4]
    unfold tryInc
    split
    · split
      next hfit => exact ⟨le_trans hr.1 (le_add_of_nonneg_right (le_of_lt hv.2.2)), hfit⟩
      next => exact hr
    · exact hr
  · unfold tryInc
    split
    · split
      next => exact le_add_of_nonneg_right (le_of_lt hv.2.2)
      next => exact le_refl _
    · exact le_refl _

theorem tryInc_iterate_inv (bidID : Nat) (b : Bidder) (n : Nat)
    (hv : BidderValid b) (hr : BidderInRange b) :
    BidderValid ((tryInc bidID)^[n] b) ∧ BidderInRange ((tryInc bidID)^[n] b) ∧
      b.currentBid ≤ ((tryInc bidID)^[n] b).currentBid := by
  induction n with
  | zero => exact ⟨hv, hr, le_refl _⟩
  | succ n ih =>
    rw [Function.iterate_succ_apply']
    obtain ⟨ihv, ihr, ihle⟩ := ih
    obtain ⟨sv, sr, sle⟩ := tryInc_inv bidID _ ihv ihr
    exact ⟨sv, sr, le_trans ihle sle⟩

/-- Projections of `eraseTime`. -/
theorem eraseTime_fields (b : Bidder) :
    (eraseTime b).id = b.id ∧ (eraseTime b).name = b.name ∧
      (eraseTime b).startingBid = b.startingBid ∧
      (eraseTime b).maxBid = b.maxBid ∧
      (eraseTime b).currentBid = b.currentBid ∧
      (eraseTime b).autoIncrement = b.autoIncrement := by
  simp [eraseTime]

/-- When the three validation checks pass, `PlaceBid` reduces to the bid
write followed by the sweep. -/
theorem PlaceBid_success (clock : Nat → Nat) (h : Heap) (l : List Nat) (p : Nat)
    (amt : ℚ) (hs : (h p).startingBid ≤ amt) (hm : amt ≤ (h p).maxBid)
    (hc : (h p).currentBid < amt) :
    PlaceBid clock h l p amt =
      (none,
        sweep clock (h p).id l
          (heapSet h p { h p with currentBid := amt, lastBidTime := clock 0 }) 1) := by
  rw [PlaceBid, if_neg (not_lt.mpr hs), if_neg (not_lt.mpr hm), if_neg (not_le.mpr hc)]

/-- On a duplicate-free list, the sweep applies the auto-increment rule to
the record at a listed address exactly once. -/
theorem sweep_currentBid_of_nodup (clock : Nat → Nat) (bidID : Nat) (l : List Nat)
    (h : Heap) (k : Nat) (a : Nat) (hnd : l.Nodup) (ha : a ∈ l)
    (hid : (h a).id ≠ bidID) :
    (sweep clock bidID l h k a).currentBid =
      if (h a).currentBid + (h a).autoIncrement ≤ (h a).maxBid then
        (h a).currentBid + (h a).autoIncrement
      else (h a).currentBid := by
  have hone := List.count_eq_one_of_mem hnd ha
  have hsc := sweep_count clock bidID l h k a
  rw [hone, Function.iterate_one] at hsc
  have hcur := congrArg Bidder.currentBid hsc
  rw [tryInc_currentBid _ _ (by simpa [eraseTime] using hid)] at hcur
  simpa [eraseTime] using hcur

/-- C1: for every auction and bidder `A` in it, after a successful
`placeBid(A, X)` the call reports no error, `A.currentBid` equals `X`, every
other bidder whose candidate `currentBid + autoIncrement` is at most its
`maxBid` (boundary-inclusive) has its `currentBid` increased by exactly its
`autoIncrement`, and every other bidder whose candidate exceeds its `maxBid`
keeps its `currentBid` unchanged. -/
theorem placeBid_success_updates (clock : Nat → Nat) (h : Heap) (l : List Nat)
    (p : Nat) (amt : ℚ) (_hmem : p ∈ l)
    (hids : (l.map fun a => (h a).id).Nodup)
    (hs : (h p).startingBid ≤ amt) (hm : amt ≤ (h p).maxBid)
    (hc : (h p).currentBid < amt) :
    (PlaceBid clock h l p amt).1 = none ∧
      ((PlaceBid clock h l p amt).2 p).currentBid = amt ∧
      ∀ a ∈ l, (h a).id ≠ (h p).id →
        (((h a).currentBid + (h a).autoIncrement ≤ (h a).maxBid →
          ((PlaceBid clock h l p amt).2 a).currentBid =
            (h a).currentBid + (h a).autoIncrement) ∧
        ((h a).maxBid < (h a).currentBid + (h a).autoIncrement →
          ((PlaceBid clock h l p amt).2 a).currentBid = (h a).currentBid)) := by
  rw [PlaceBid_success clock h l p amt hs hm hc]
  refine ⟨rfl, ?_, ?_⟩
  · have hcount := sweep_count clock (h p).id l
      (heapSet h p { h p with currentBid := amt, lastBidTime := clock 0 }) 1 p
    rw [heapSet_same] at hcount
    rw [tryInc_iterate_id_eq _ _ _ (by simp [eraseTime])] at hcount
    have := congrArg Bidder.currentBid hcount
    simpa [eraseTime] using this
  · intro a ha hid
    have hap : a ≠ p := fun e => hid (by rw [e])
    have hnd : l.Nodup := List.Nodup.of_map _ hids
    have hrw : heapSet h p { h p with currentBid := amt, lastBidTime := clock 0 } a = h a :=
      heapSet_other _ _ _ _ hap
    have hcur := sweep_currentBid_of_nodup clock (h p).id l
      (heapSet h p { h p with currentBid := amt, lastBidTime := clock 0 }) 1 a hnd ha
      (by rw [hrw]; exact hid)
    rw [hrw] at hcur
    constructor
    · intro hfit
      rw [hcur, if_pos hfit]
    · intro hover
      rw [hcur, if_neg (not_le.mpr hover)]

/-- C3: `PlaceBid` returns an error and leaves the whole heap unchanged
exactly when one of the three checks fails, the checks being applied in
order (below starting bid, above max bid, not higher than current bid)
with the first failing check determining the error. -/
theorem placeBid_validation (clock : Nat → Nat) (h : Heap) (l : List Nat)
    (p : Nat) (amt : ℚ) :
    ((PlaceBid clock h l p amt).1 = some BidError.bidBelowStartingBid ↔
        amt < (h p).startingBid) ∧
      ((PlaceBid clock h l p amt).1 = some BidError.bidAboveMaxBid ↔
        (¬amt < (h p).startingBid ∧ amt > (h p).maxBid)) ∧
      ((PlaceBid clock h l p amt).1 = some BidError.bidNotHigherThanCurrent ↔
        (¬amt < (h p).startingBid ∧ ¬amt > (h p).maxBid ∧ amt ≤ (h p).currentBid)) ∧
      ((PlaceBid clock h l p amt).1 ≠ none ↔
        (amt < (h p).startingBid ∨ amt > (h p).maxBid ∨ amt ≤ (h p).currentBid)) ∧
      ((PlaceBid clock h l p amt).1 ≠ none → (PlaceBid clock h l p amt).2 = h) := by
  by_cases h1 : amt < (h p).startingBid <;>
    by_cases h2 : amt > (h p).maxBid <;>
      by_cases h3 : amt ≤ (h p).currentBid <;>
        simp [PlaceBid, h1, h2, h3]

/-- C5: every bidder (the target of the bid and every member of the
auction list) with valid parameters and an in-range `currentBid` stays in
range after any `PlaceBid` call, and its `currentBid` never decreases. -/
theorem placeBid_invariant (clock : Nat → Nat) (h : Heap) (l : List Nat)
    (p : Nat) (amt : ℚ)
    (hv : ∀ a ∈ p :: l, BidderValid (h a) ∧ BidderInRange (h a)) :
    ∀ a ∈ p :: l, BidderInRange ((PlaceBid clock h l p amt).2 a) ∧
      (h a).currentBid ≤ ((PlaceBid clock h l p amt).2 a).currentBid := by
  by_cases h1 : amt < (h p).startingBid
  · intro a ha
    simp only [PlaceBid, if_pos h1]
    exact ⟨(hv a ha).2, le_refl _⟩
  · by_cases h2 : amt > (h p).maxBid
    · intro a ha
      simp only [PlaceBid, if_neg h1, if_pos h2]
      exact ⟨(hv a ha).2, le_refl _⟩
    · by_cases h3 : amt ≤ (h p).currentBid
      · intro a ha
        simp only [PlaceBid, if_neg h1, if_neg h2, if_pos h3]
        exact ⟨(hv a ha).2, le_refl _⟩
      · intro a ha
        rw [PlaceBid_success clock h l p amt (not_lt.mp h1) (not_lt.mp h2)
          (not_le.mp h3)]
        have hsc := sweep_count clock (h p).id l
          (heapSet h p { h p with currentBid := amt, lastBidTime := clock 0 }) 1 a
        have hbase : BidderValid
              (heapSet h p { h p with currentBid := amt, lastBidTime := clock 0 } a) ∧
            BidderInRange
              (heapSet h p { h p with currentBid := amt, lastBidTime := clock 0 } a) ∧
            (h a).currentBid ≤
              (heapSet h p { h p with currentBid := amt, lastBidTime := clock 0 } a).currentBid := by
          by_cases hap : a = p
          · subst hap
            rw [heapSet_same]
            obtain ⟨hva, _⟩ := hv a (List.mem_cons_self a l)
            refine ⟨?_, ?_, le_of_lt (not_le.mp h3)⟩
            · simpa [BidderValid] using hva
            · exact ⟨not_lt.mp h1, not_lt.mp h2⟩
          · rw [heapSet_other _ _ _ _ hap]
            exact ⟨(hv a ha).1, (hv a ha).2, le_refl _⟩
        obtain ⟨hbv, hbr, hble⟩ := hbase
        have hiter := tryInc_iterate_inv (h p).id
          (eraseTime (heapSet h p { h p with currentBid := amt, lastBidTime := clock 0 } a))
          (l.count a)
          (by simpa [BidderValid, eraseTime] using hbv)
          (by simpa [BidderInRange, eraseTime] using hbr)
        constructor
        · have : BidderInRange (eraseTime (sweep clock (h p).id l
              (heapSet h p { h p with currentBid := amt, lastBidTime := clock 0 }) 1 a)) := by
            rw [hsc]; exact hiter.2.1
          simpa [BidderInRange, eraseTime] using this
        · have hcur := congrArg Bidder.currentBid hsc
          simp only [eraseTime] at hcur
          rw [hcur]
          refine le_trans hble ?_
          simpa [eraseTime] using hiter.2.2

/-- C9: `PlaceBid` performs no membership check on its bidder argument:
for a bidder record whose address is not in the auction's list, a call
passing the three amount checks still succeeds, overwrites that record's
`currentBid` and `lastBidTime`, and auto-increments every listed bidder
whose ID differs from the argument's. -/
theorem placeBid_no_membership_check (clock : Nat → Nat) (h : Heap)
    (l : List Nat) (p : Nat) (amt : ℚ) (hp : p ∉ l)
    (hids : (l.map fun a => (h a).id).Nodup)
    (hs : (h p).startingBid ≤ amt) (hm : amt ≤ (h p).maxBid)
    (hc : (h p).currentBid < amt) :
    (PlaceBid clock h l p amt).1 = none ∧
      (PlaceBid clock h l p amt).2 p =
        { h p with currentBid := amt, lastBidTime := clock 0 } ∧
      ∀ a ∈ l, (h a).id ≠ (h p).id →
        (((h a).currentBid + (h a).autoIncrement ≤ (h a).maxBid →
          ((PlaceBid clock h l p amt).2 a).currentBid =
            (h a).currentBid + (h a).autoIncrement) ∧
        ((h a).maxBid < (h a).currentBid + (h a).autoIncrement →
          ((PlaceBid clock h l p amt).2 a).currentBid = (h a).currentBid)) := by
  rw [PlaceBid_success clock h l p amt hs hm hc]
  refine ⟨rfl, ?_, ?_⟩
  · show sweep clock (h p).id l
        (heapSet h p { h p with currentBid := amt, lastBidTime := clock 0 }) 1 p = _
    rw [sweep_not_mem _ _ _ _ _ _ hp, heapSet_same]
  · intro a ha hid
    have hap : a ≠ p := fun e => hp (e ▸ ha)
    have hnd : l.Nodup := List.Nodup.of_map _ hids
    have hrw : heapSet h p { h p with currentBid := amt, lastBidTime := clock 0 } a = h a :=
      heapSet_other _ _ _ _ hap
    have hcur := sweep_currentBid_of_nodup clock (h p).id l
      (heapSet h p { h p with currentBid := amt, lastBidTime := clock 0 }) 1 a hnd ha
      (by rw [hrw]; exact hid)
    rw [hrw] at hcur
    constructor
    · intro hfit
      rw [hcur, if_pos hfit]
    · intro hover
      rw [hcur, if_neg (not_le.mpr hover)]

/-- C6 (amended): permuting the order in which the auto-increment sweep
walks the bidder list (even with a different clock) changes neither the
returned error nor any bidder's resulting record apart from its
`lastBidTime` timestamp; in particular every `currentBid` is
order-independent.  The timestamps themselves, and hence `DetermineWinner`
tie-breaks, can depend on the order (see the counterexample). -/
theorem placeBid_perm_eraseTime (clock clock' : Nat → Nat) (h : Heap)
    (l l' : List Nat) (p : Nat) (amt : ℚ) (hperm : l.Perm l') :
    (PlaceBid clock h l p amt).1 = (PlaceBid clock' h l' p amt).1 ∧
      ∀ a, eraseTime ((PlaceBid clock h l p amt).2 a) =
        eraseTime ((PlaceBid clock' h l' p amt).2 a) := by
  by_cases h1 : amt < (h p).startingBid
  · simp [PlaceBid, h1]
  · by_cases h2 : amt > (h p).maxBid
    · simp [PlaceBid, h1, h2]
    · by_cases h3 : amt ≤ (h p).currentBid
      · simp [PlaceBid, h1, h2, h3]
      · rw [PlaceBid_success clock h l p amt (not_lt.mp h1) (not_lt.mp h2) (not_le.mp h3),
          PlaceBid_success clock' h l' p amt (not_lt.mp h1) (not_lt.mp h2) (not_le.mp h3)]
        refine ⟨rfl, fun a => ?_⟩
        rw [sweep_count, sweep_count, hperm.count_eq]
        by_cases hap : a = p
        · subst hap
          rw [heapSet_same, heapSet_same]
          simp [eraseTime]
        · rw [heapSet_other _ _ _ _ hap, heapSet_other _ _ _ _ hap]

/-- One step of the winner scan: `if isWinner(winner, bidder) { winner =
bidder }`. -/
def winnerStep (winner : Option Bidder) (b : Bidder) : Option Bidder :=
  if isWinner winner b then some b else winner

theorem DetermineWinner_eq_foldl (bs : List Bidder) :
    DetermineWinner bs = bs.foldl winnerStep none := rfl

/-- Unfolding of the replacement test against an existing scan leader. -/
theorem isWinner_some_iff (w b : Bidder) :
    isWinner (some w) b = true ↔
      (w.currentBid < b.currentBid ∨
        (b.currentBid = w.currentBid ∧ b.lastBidTime < w.lastBidTime)) := by
  simp [isWinner]

theorem isWinner_false_iff (w b : Bidder) :
    isWinner (some w) b = false ↔
      ¬(w.currentBid < b.currentBid ∨
        (b.currentBid = w.currentBid ∧ b.lastBidTime < w.lastBidTime)) := by
  rw [← isWinner_some_iff]
  exact ⟨fun e => by simp [e], fun e => by simpa using e⟩

/-- The scan leader survives a segment none of whose elements replaces it. -/
theorem foldl_winnerStep_stay (w : Bidder) (l : List Bidder)
    (hstay : ∀ b ∈ l, isWinner (some w) b = false) :
    l.foldl winnerStep (some w) = some w := by
  induction l with
  | nil => rfl
  | cons b rest ih =>
    rw [List.foldl_cons, winnerStep, hstay b (List.mem_cons_self b rest)]
    exact ih fun c hc => hstay c (List.mem_cons_of_mem b hc)

/-- A scan started from a leader always ends at the leader or at a list
element. -/
theorem foldl_winnerStep_mem (l : List Bidder) :
    ∀ w : Bidder, ∃ w', l.foldl winnerStep (some w) = some w' ∧ (w' = w ∨ w' ∈ l) := by
  induction l with
  | nil => exact fun w => ⟨w, rfl, Or.inl rfl⟩
  | cons b rest ih =>
    intro w
    rw [List.foldl_cons, winnerStep]
    by_cases hrep : isWinner (some w) b = true
    · rw [if_pos hrep]
      obtain ⟨w', he, hw⟩ := ih b
      exact ⟨w', he, Or.inr (hw.elim (fun e => e ▸ List.mem_cons_self b rest)
        (List.mem_cons_of_mem b))⟩
    · rw [if_neg hrep]
      obtain ⟨w', he, hw⟩ := ih w
      exact ⟨w', he, hw.imp id (List.mem_cons_of_mem b)⟩

/-- A scan started from `nil` ends nowhere only on the empty list, else at
a list element. -/
theorem foldl_winnerStep_none (l : List Bidder) :
    l.foldl winnerStep none = none ∨
      ∃ w ∈ l, l.foldl winnerStep none = some w := by
  cases l with
  | nil => exact Or.inl rfl
  | cons b rest =>
    rw [List.foldl_cons]
    have hb : winnerStep none b = some b := rfl
    rw [hb]
    obtain ⟨w', he, hw⟩ := foldl_winnerStep_mem rest b
    exact Or.inr ⟨w', hw.elim (fun e => e ▸ List.mem_cons_self b rest)
      (List.mem_cons_of_mem b), he⟩

/-- The scan over `pre ++ m :: post` returns `m` when `m` replaces every
possible leader coming out of `pre` and nothing in `post` replaces `m`. -/
theorem foldl_winnerStep_concat (pre post : List Bidder) (m : Bidder)
    (hpre : ∀ b ∈ pre, isWinner (some b) m = true)
    (hpost : ∀ b ∈ post, isWinner (some m) b = false) :
    (pre ++ m :: post).foldl winnerStep none = some m := by
  rw [List.foldl_append]
  rcases foldl_winnerStep_none pre with hnone | ⟨w, hwmem, hsome⟩
  · rw [hnone, List.foldl_cons]
    have hm : winnerStep none m = some m := rfl
    rw [hm]
    exact foldl_winnerStep_stay m post hpost
  · rw [hsome, List.foldl_cons, winnerStep, hpre w hwmem]
    exact foldl_winnerStep_stay m post hpost

/-- The scan returns the element at position `i` whenever no element
replaces it and it replaces every possible leader arising before it. -/
theorem determineWinner_first_max (l : List Bidder) (i : Nat) (hi : i < l.length)
    (hmax : ∀ b ∈ l.drop i, isWinner (some (l.get ⟨i, hi⟩)) b = false)
    (hbefore : ∀ b ∈ l.take i, isWinner (some b) (l.get ⟨i, hi⟩) = true) :
    DetermineWinner l = some (l.get ⟨i, hi⟩) := by
  have hdrop : l.drop i = l.get ⟨i, hi⟩ :: l.drop (i + 1) := by
    rw [List.get_eq_getElem]
    exact List.drop_eq_getElem_cons hi
  have hdecomp : l = l.take i ++ l.get ⟨i, hi⟩ :: l.drop (i + 1) := by
    conv_lhs => rw [← List.take_append_drop i l, hdrop]
  have hpost : ∀ b ∈ l.drop (i + 1), isWinner (some (l.get ⟨i, hi⟩)) b = false :=
    fun b hb => hmax b (by rw [hdrop]; exact List.mem_cons_of_mem _ hb)
  rw [DetermineWinner_eq_foldl]
  conv_lhs => rw [hdecomp]
  exact foldl_winnerStep_concat _ _ _ hbefore hpost

/-- The first occurrence of an element is not among the elements before it. -/
theorem not_mem_take_indexOf {α : Type} [DecidableEq α] (b : α) :
    ∀ l : List α, b ∉ l.take (l.indexOf b)
  | [] => by simp
  | x :: xs => by
    by_cases hxb : x = b
    · subst hxb
      rw [List.indexOf_cons_self]
      simp
    · rw [List.indexOf_cons_ne _ hxb, List.take_succ_cons]
      intro hmem
      rcases List.mem_cons.mp hmem with he | hmem'
      · exact hxb he.symm
      · exact not_mem_take_indexOf b xs hmem'

/-- C2: `DetermineWinner` scans the bidders tracking a current best; a
bidder replaces the current best exactly when the best is unset, or its
`currentBid` is strictly higher, or the `currentBid`s are equal and its
`lastBidTime` is strictly earlier; consequently a bidder that strictly
dominates every other bidder this way (in particular a unique highest
bidder, or the strictly earliest among equal highest bidders) is
returned. -/
theorem determineWinner_scan (w b : Bidder) (l : List Bidder) :
    isWinner none b = true ∧
      (isWinner (some w) b = true ↔
        (w.currentBid < b.currentBid ∨
          (b.currentBid = w.currentBid ∧ b.lastBidTime < w.lastBidTime))) ∧
      (b ∈ l →
        (∀ c ∈ l, c ≠ b →
          (c.currentBid < b.currentBid ∨
            (c.currentBid = b.currentBid ∧ b.lastBidTime < c.lastBidTime))) →
        DetermineWinner l = some b) := by
  refine ⟨rfl, isWinner_some_iff w b, ?_⟩
  intro hmem hdom
  have hi : l.indexOf b < l.length := List.indexOf_lt_length.mpr hmem
  have hget : l.get ⟨l.indexOf b, hi⟩ = b := List.indexOf_get hi
  have hres := determineWinner_first_max l (l.indexOf b) hi ?_ ?_
  · rw [hget] at hres
    exact hres
  · intro c hc
    rw [hget, isWinner_false_iff]
    by_cases hcb : c = b
    · subst hcb
      simp
    · rcases hdom c (List.drop_subset _ l hc) hcb with hlt | ⟨heq, hearly⟩
      · rintro (h1 | ⟨h2, _⟩)
        · exact absurd (lt_trans hlt h1) (lt_irrefl _)
        · exact absurd h2 (ne_of_lt hlt)
      · rintro (h1 | ⟨_, h3⟩)
        · exact absurd h1 (by rw [heq]; exact lt_irrefl _)
        · exact absurd (lt_trans hearly h3) (lt_irrefl _)
  · intro c hc
    have hcb : c ≠ b := by
      intro e
      exact not_mem_take_indexOf b l (e ▸ hc)
    rw [hget, isWinner_some_iff]
    rcases hdom c (List.take_subset _ l hc) hcb with hlt | ⟨heq, hearly⟩
    · exact Or.inl hlt
    · exact Or.inr ⟨heq.symm, hearly⟩

/-- C10: when the bidder at position `i` is replaced by no bidder of the
list (it is among the highest bids with a weakly earliest timestamp) and no
bidder stored before position `i` is tied with it on both `currentBid` and
`lastBidTime`, `DetermineWinner` returns the bidder at position `i`: among
bidders tied on both fields, the one appearing earliest in the stored
order wins, because replacement requires a strictly earlier
`lastBidTime`. -/
theorem determineWinner_earliest_of_tie (l : List Bidder) (i : Nat) (hi : i < l.length)
    (hmax : ∀ b ∈ l, isWinner (some (l.get ⟨i, hi⟩)) b = false)
    (hfirst : ∀ c ∈ l.take i,
      ¬(c.currentBid = (l.get ⟨i, hi⟩).currentBid ∧
        c.lastBidTime = (l.get ⟨i, hi⟩).lastBidTime)) :
    DetermineWinner l = some (l.get ⟨i, hi⟩) := by
  apply determineWinner_first_max l i hi
  · exact fun b hb => hmax b (List.drop_subset _ l hb)
  · intro c hc
    have hnb := hmax c (List.take_subset _ l hc)
    rw [isWinner_false_iff] at hnb
    push_neg at hnb
    obtain ⟨hnlt, himp⟩ := hnb
    rw [isWinner_some_iff]
    rcases lt_trichotomy c.currentBid (l.get ⟨i, hi⟩).currentBid with hlt | heq | hgt
    · exact Or.inl hlt
    · refine Or.inr ⟨heq.symm, ?_⟩
      have hle : (l.get ⟨i, hi⟩).lastBidTime ≤ c.lastBidTime := himp heq
      have hne : c.lastBidTime ≠ (l.get ⟨i, hi⟩).lastBidTime :=
        fun e => hfirst c hc ⟨heq, e⟩
      exact lt_of_le_of_ne hle (Ne.symm hne)
    · exact absurd hgt (not_lt.mpr hnlt)

/-- The per-bidder validation succeeds exactly on valid parameters. -/
theorem validateBidder_none_iff (b : Bidder) :
    validateBidder b = none ↔ BidderValid b := by
  constructor
  · intro he
    by_cases h1 : b.startingBid ≤ 0
    · rw [validateBidder, if_pos h1] at he
      exact Option.noConfusion he
    · by_cases h2 : b.maxBid < b.startingBid
      · rw [validateBidder, if_neg h1, if_pos h2] at he
        exact Option.noConfusion he
      · by_cases h3 : b.autoIncrement ≤ 0
        · rw [validateBidder, if_neg h1, if_neg h2, if_pos h3] at he
          exact Option.noConfusion he
        · exact ⟨not_le.mp h1, not_lt.mp h2, not_le.mp h3⟩
  · rintro ⟨hs, hm, hi⟩
    rw [validateBidder, if_neg (not_le.mpr hs), if_neg (not_lt.mpr hm),
      if_neg (not_le.mpr hi)]

/-- The construction loop succeeds exactly when the walked IDs are fresh
with respect to `seen`, pairwise distinct, and every bidder is valid. -/
theorem checkBidders_none_iff (h : Heap) :
    ∀ rest seen : List Nat,
      checkBidders h seen rest = none ↔
        (((rest.map fun a => (h a).id).Nodup ∧
          ∀ a ∈ rest, (h a).id ∉ seen) ∧
          ∀ a ∈ rest, validateBidder (h a) = none) := by
  intro rest
  induction rest with
  | nil =>
    intro seen
    simp [checkBidders]
  | cons a rest ih =>
    intro seen
    by_cases hdup : (h a).id ∈ seen
    · rw [checkBidders, if_pos hdup]
      constructor
      · intro he
        exact Option.noConfusion he
      · rintro ⟨⟨-, hfresh⟩, -⟩
        exact absurd hdup (hfresh a (List.mem_cons_self a rest))
    · rw [checkBidders, if_neg hdup]
      cases hv : validateBidder (h a) with
      | some e =>
        constructor
        · intro he
          exact Option.noConfusion he
        · rintro ⟨-, hval⟩
          have := hval a (List.mem_cons_self a rest)
          rw [hv] at this
          exact Option.noConfusion this
      | none =>
        rw [ih ((h a).id :: seen)]
        constructor
        · rintro ⟨⟨hnd, hfresh⟩, hval⟩
          refine ⟨⟨?_, ?_⟩, ?_⟩
          · rw [List.map_cons, List.nodup_cons]
            refine ⟨?_, hnd⟩
            intro hmem
            rcases List.mem_map.mp hmem with ⟨c, hcmem, hcid⟩
            exact hfresh c hcmem (by rw [hcid]; exact List.mem_cons_self _ _)
          · intro c hc
            rcases List.mem_cons.mp hc with he | hc'
            · rw [he]
              exact hdup
            · intro hmem
              exact hfresh c hc' (List.mem_cons_of_mem _ hmem)
          · intro c hc
            rcases List.mem_cons.mp hc with he | hc'
            · rw [he]
              exact hv
            · exact hval c hc'
        · rintro ⟨⟨hnd, hfresh⟩, hval⟩
          rw [List.map_cons, List.nodup_cons] at hnd
          refine ⟨⟨hnd.2, ?_⟩, fun c hc => hval c (List.mem_cons_of_mem _ hc)⟩
          intro c hc hmem
          rcases List.mem_cons.mp hmem with he | hmem'
          · exact hnd.1 (he ▸ List.mem_map.mpr ⟨c, hc, rfl⟩)
          · exact hfresh c (List.mem_cons_of_mem _ hc) hmem'

/-- A duplicate-bidder error names an identifier occurring at least twice
among the IDs of `seen` and of the remaining bidders together. -/
theorem checkBidders_dup_count (h : Heap) :
    ∀ (rest seen : List Nat) (i : Nat),
      checkBidders h seen rest = some (AuctionError.duplicateBidder i) →
        2 ≤ seen.count i + ((rest.map fun a => (h a).id).count i) := by
  intro rest
  induction rest with
  | nil =>
    intro seen i he
    exact absurd he (by simp [checkBidders])
  | cons a rest ih =>
    intro seen i he
    rw [checkBidders] at he
    by_cases hdup : (h a).id ∈ seen
    · rw [if_pos hdup] at he
      have hi : (h a).id = i := AuctionError.duplicateBidder.inj (Option.some.inj he)
      subst hi
      have hone : 0 < seen.count (h a).id := List.count_pos_iff.mpr hdup
      rw [List.map_cons, List.count_cons_self]
      omega
    · rw [if_neg hdup] at he
      cases hv : validateBidder (h a) with
      | some e =>
        rw [hv] at he
        exact absurd (Option.some.inj he) (by simp)
      | none =>
        rw [hv] at he
        have hrec := ih ((h a).id :: seen) i he
        by_cases hia : i = (h a).id
        · subst hia
          rw [List.count_cons_self] at hrec
          rw [List.map_cons, List.count_cons_self]
          omega
        · rw [List.count_cons_of_ne hia] at hrec
          rw [List.map_cons, List.count_cons_of_ne hia]
          omega

/-- C4: auction construction succeeds exactly when there are at least two
bidders, their identities are pairwise distinct and every bidder's
parameters are valid; on success the returned auction holds exactly the
given bidder list; a duplicate-bidder failure names an identifier that
really occurs at least twice, whatever the duplicating bidders' other
fields; and on any validation failure no auction is created. -/
theorem newAuction_validation (h : Heap) (bs : List Nat) (nid : Nat) :
    (validateAuctionData h bs = none ↔
      (2 ≤ bs.length ∧ (bs.map fun a => (h a).id).Nodup ∧
        ∀ a ∈ bs, BidderValid (h a))) ∧
      (validateAuctionData h bs = none →
        NewAuction nid h bs = Except.ok { id := nid, bidders := bs }) ∧
      (∀ i, validateAuctionData h bs = some (AuctionError.duplicateBidder i) →
        2 ≤ ((bs.map fun a => (h a).id).count i)) ∧
      (∀ e, validateAuctionData h bs = some e →
        ∀ A, NewAuction nid h bs ≠ Except.ok A) := by
  refine ⟨?_, ?_, ?_, ?_⟩
  · rw [validateAuctionData]
    by_cases hlen : bs.length ≤ 1
    · rw [if_pos hlen]
      constructor
      · intro he
        exact Option.noConfusion he
      · rintro ⟨h2len, -, -⟩
        omega
    · rw [if_neg hlen, checkBidders_none_iff h bs []]
      constructor
      · rintro ⟨⟨hnd, -⟩, hval⟩
        exact ⟨by omega, hnd,
          fun a ha => (validateBidder_none_iff (h a)).mp (hval a ha)⟩
      · rintro ⟨-, hnd, hval⟩
        exact ⟨⟨hnd, fun a _ => List.not_mem_nil _⟩,
          fun a ha => (validateBidder_none_iff (h a)).mpr (hval a ha)⟩
  · intro he
    simp [NewAuction, he]
  · intro i he
    rw [validateAuctionData] at he
    by_cases hlen : bs.length ≤ 1
    · rw [if_pos hlen] at he
      exact absurd (Option.some.inj he) (by simp)
    · rw [if_neg hlen] at he
      have := checkBidders_dup_count h bs [] i he
      simpa using this
  · intro e he A
    simp [NewAuction, he]

/-- The reference bidders of the test's Auction #1 (Sasha 50–80/+3,
John 60–82/+2, Pat 55–85/+5), each with `currentBid` initialized to its
starting bid as the test's `createBidder` does, at addresses 0, 1, 2. -/
def refHeap : Heap := fun a =>
  match a with
  | 0 => { id := 0, name := "Sasha", startingBid := 50, maxBid := 80,
           currentBid := 50, autoIncrement := 3, lastBidTime := 0 }
  | 1 => { id := 1, name := "John", startingBid := 60, maxBid := 82,
           currentBid := 60, autoIncrement := 2, lastBidTime := 0 }
  | 2 => { id := 2, name := "Pat", startingBid := 55, maxBid := 85,
           currentBid := 55, autoIncrement := 5, lastBidTime := 0 }
  | _ => { id := 99, name := "none", startingBid := 1, maxBid := 1,
           currentBid := 1, autoIncrement := 1, lastBidTime := 0 }

/-- One round of the test harness: each bidder in turn attempts the next
bid `currentBid + autoIncrement` when it does not exceed its `maxBid`.
The state carries the heap, a time base (each `PlaceBid` call gets a
fresh, strictly later clock window), and whether some bid succeeded. -/
def biddingRound (l : List Nat) (st : Heap × Nat × Bool) : Heap × Nat × Bool :=
  l.foldl
    (fun st a =>
      let h := st.1
      let t := st.2.1
      let active := st.2.2
      let nextBid := (h a).currentBid + (h a).autoIncrement
      if nextBid ≤ (h a).maxBid then
        let r := PlaceBid (fun k => t + k) h l a nextBid
        (r.2, t + 10, active || r.1.isNone)
      else st)
    st

/-- Fuel-bounded repetition of bidding rounds until a round places no
bid, as the test's `for active` loop does. -/
def runAuction : Nat → List Nat → Heap → Nat → Heap
  | 0, _, h, _ => h
  | fuel + 1, l, h, t =>
    let st := biddingRound l (h, t, false)
    if st.2.2 then runAuction fuel l st.1 st.2.1 else st.1

/-- C7: starting from the three reference bidders with `currentBid`
initialized to their starting bids, repeatedly advancing each bidder in
turn by its own increment until no bidder can afford a further bid and
then calling `DetermineWinner` returns Pat (the final state, reached
within the fuel bound, offers no affordable next bid to any bidder). -/
theorem referenceAuction_winner_Pat :
    (DetermineWinner ([0, 1, 2].map (runAuction 10 [0, 1, 2] refHeap 1))).map
        Bidder.name = some "Pat" ∧
      (runAuction 10 [0, 1, 2] refHeap 1 0).maxBid <
        (runAuction 10 [0, 1, 2] refHeap 1 0).currentBid +
          (runAuction 10 [0, 1, 2] refHeap 1 0).autoIncrement ∧
      (runAuction 10 [0, 1, 2] refHeap 1 1).maxBid <
        (runAuction 10 [0, 1, 2] refHeap 1 1).currentBid +
          (runAuction 10 [0, 1, 2] refHeap 1 1).autoIncrement ∧
      (runAuction 10 [0, 1, 2] refHeap 1 2).maxBid <
        (runAuction 10 [0, 1, 2] refHeap 1 2).currentBid +
          (runAuction 10 [0, 1, 2] refHeap 1 2).autoIncrement := by
  norm_num [runAuction, biddingRound, PlaceBid, sweep, heapSet, refHeap,
    DetermineWinner, isWinner]

/-- A heap on which two other bidders (addresses 1 and 2) both accept
their auto-increment and land on the same `currentBid` 35: used to show
that the sweep order is observable through the timestamps. -/
def exH : Heap := fun a =>
  match a with
  | 0 => { id := 0, name := "A", startingBid := 10, maxBid := 100,
           currentBid := 10, autoIncrement := 1, lastBidTime := 0 }
  | 1 => { id := 1, name := "X", startingBid := 30, maxBid := 100,
           currentBid := 30, autoIncrement := 5, lastBidTime := 0 }
  | 2 => { id := 2, name := "Y", startingBid := 31, maxBid := 100,
           currentBid := 31, autoIncrement := 4, lastBidTime := 0 }
  | _ => { id := 99, name := "none", startingBid := 1, maxBid := 1,
           currentBid := 1, autoIncrement := 1, lastBidTime := 0 }

/-- C6 (counterexample): with a clock whose successive reads differ,
sweeping the same accepted bid over the permuted bidder list `[0, 2, 1]`
instead of `[0, 1, 2]` yields a different auction state (bidder 1 receives
a different `lastBidTime`) and a different `DetermineWinner` result on the
very same records, refuting that the sweep order affects nothing
observable. -/
theorem placeBid_sweep_order_observable :
    ([0, 1, 2] : List Nat).Perm [0, 2, 1] ∧
      (PlaceBid (fun k => k) exH [0, 1, 2] 0 20).2 1 ≠
        (PlaceBid (fun k => k) exH [0, 2, 1] 0 20).2 1 ∧
      DetermineWinner ([0, 1, 2].map (PlaceBid (fun k => k) exH [0, 1, 2] 0 20).2) ≠
        DetermineWinner ([0, 1, 2].map (PlaceBid (fun k => k) exH [0, 2, 1] 0 20).2) := by
  refine ⟨List.Perm.cons 0 (List.Perm.swap 2 1 []), ?_, ?_⟩ <;>
    norm_num [PlaceBid, sweep, heapSet, exH, DetermineWinner, isWinner]

/-- Witness for C1 at a concrete input: Sasha bids 53; Sasha's bid is
written, John's `currentBid` is auto-incremented by exactly his
`autoIncrement`. -/
theorem placeBid_success_updates_witness :
    (PlaceBid (fun k => k) refHeap [0, 1, 2] 0 53).1 = none ∧
      ((PlaceBid (fun k => k) refHeap [0, 1, 2] 0 53).2 0).currentBid = 53 ∧
      ((PlaceBid (fun k => k) refHeap [0, 1, 2] 0 53).2 1).currentBid =
        (refHeap 1).currentBid + (refHeap 1).autoIncrement := by
  have h := placeBid_success_updates (fun k => k) refHeap [0, 1, 2] 0 53
    (by decide) (by decide) (by norm_num [refHeap]) (by norm_num [refHeap])
    (by norm_num [refHeap])
  exact ⟨h.1, h.2.1,
    (h.2.2 1 (by decide) (by norm_num [refHeap])).1 (by norm_num [refHeap])⟩

/-- Witness for C2 at a concrete input: John holds the unique highest
current bid among the reference bidders and is returned. -/
theorem determineWinner_scan_witness :
    DetermineWinner [refHeap 0, refHeap 1, refHeap 2] = some (refHeap 1) := by
  refine (determineWinner_scan (refHeap 0) (refHeap 1)
    [refHeap 0, refHeap 1, refHeap 2]).2.2 ?_ ?_
  · exact List.mem_cons_of_mem _ (List.mem_cons_self _ _)
  · intro c hc hne
    rcases List.mem_cons.mp hc with e | hc'
    · rw [e]
      left
      norm_num [refHeap]
    · rcases List.mem_cons.mp hc' with e | hc''
      · exact absurd e hne
      · rcases List.mem_cons.mp hc'' with e | hc'''
        · rw [e]
          left
          norm_num [refHeap]
        · exact absurd hc''' (List.not_mem_nil c)

/-- Witness for C3 at a concrete input: a bid of 20 is below Sasha's
starting bid 50, the first check fires and the heap is untouched. -/
theorem placeBid_validation_witness :
    (PlaceBid (fun k => k) refHeap [0, 1, 2] 0 20).1 =
        some BidError.bidBelowStartingBid ∧
      (PlaceBid (fun k => k) refHeap [0, 1, 2] 0 20).2 = refHeap := by
  have h := placeBid_validation (fun k => k) refHeap [0, 1, 2] 0 20
  have h1 := h.1.mpr (by norm_num [refHeap])
  exact ⟨h1, h.2.2.2.2 (by rw [h1]; simp)⟩

/-- Witness for C4 at a concrete input: the three reference bidders form
a valid auction holding exactly that bidder list. -/
theorem newAuction_validation_witness :
    validateAuctionData refHeap [0, 1, 2] = none ∧
      NewAuction 7 refHeap [0, 1, 2] =
        Except.ok { id := 7, bidders := [0, 1, 2] } := by
  have h := newAuction_validation refHeap [0, 1, 2] 7
  have hv : ∀ a ∈ ([0, 1, 2] : List Nat), BidderValid (refHeap a) := by
    intro a ha
    fin_cases ha <;> norm_num [BidderValid, refHeap]
  have hnone := h.1.mpr ⟨by decide, by decide, hv⟩
  exact ⟨hnone, h.2.1 hnone⟩

/-- Witness for C5 at a concrete input: after Sasha bids 53, John is
still in range and his bid has not decreased. -/
theorem placeBid_invariant_witness :
    BidderInRange ((PlaceBid (fun k => k) refHeap [0, 1, 2] 0 53).2 1) ∧
      (refHeap 1).currentBid ≤
        ((PlaceBid (fun k => k) refHeap [0, 1, 2] 0 53).2 1).currentBid := by
  have hv : ∀ a ∈ (0 : Nat) :: [0, 1, 2],
      BidderValid (refHeap a) ∧ BidderInRange (refHeap a) := by
    intro a ha
    fin_cases ha <;>
      exact ⟨by norm_num [BidderValid, refHeap], by norm_num [BidderInRange, refHeap]⟩
  exact placeBid_invariant (fun k => k) refHeap [0, 1, 2] 0 53 hv 1 (by decide)

/-- Witness for C6 (amended) at a concrete input: sweeping in the
permuted order under a different clock yields the same error result and
the same bidder 1 record up to its timestamp. -/
theorem placeBid_perm_eraseTime_witness :
    (PlaceBid (fun k => k) exH [0, 1, 2] 0 20).1 =
        (PlaceBid (fun k => 5 * k) exH [0, 2, 1] 0 20).1 ∧
      eraseTime ((PlaceBid (fun k => k) exH [0, 1, 2] 0 20).2 1) =
        eraseTime ((PlaceBid (fun k => 5 * k) exH [0, 2, 1] 0 20).2 1) := by
  have h := placeBid_perm_eraseTime (fun k => k) (fun k => 5 * k) exH
    [0, 1, 2] [0, 2, 1] 0 20 (List.Perm.cons 0 (List.Perm.swap 2 1 []))
  exact ⟨h.1, h.2 1⟩

/-- Witness for C9 at a concrete input: Sasha's record at address 0 is
not part of the two-member auction `[1, 2]`, yet her bid of 53 succeeds
and overwrites her record. -/
theorem placeBid_no_membership_check_witness :
    (PlaceBid (fun k => k) refHeap [1, 2] 0 53).1 = none ∧
      (PlaceBid (fun k => k) refHeap [1, 2] 0 53).2 0 =
        { refHeap 0 with currentBid := 53, lastBidTime := 0 } := by
  have h := placeBid_no_membership_check (fun k => k) refHeap [1, 2] 0 53
    (by decide) (by decide) (by norm_num [refHeap]) (by norm_num [refHeap])
    (by norm_num [refHeap])
  exact ⟨h.1, h.2.1⟩

/-- Two bidders tied on both the highest `currentBid` and the same
`lastBidTime`, used to witness the earliest-in-order tie-break. -/
def tieL : Bidder :=
  { id := 5, name := "L", startingBid := 1, maxBid := 50,
    currentBid := 40, autoIncrement := 1, lastBidTime := 7 }

def tieM : Bidder :=
  { id := 6, name := "M", startingBid := 2, maxBid := 60,
    currentBid := 40, autoIncrement := 2, lastBidTime := 7 }

/-- Witness for C10 at a concrete input: two bidders tied on both fields;
the one stored first is returned. -/
theorem determineWinner_earliest_of_tie_witness :
    DetermineWinner [tieL, tieM] = some tieL := by
  refine determineWinner_earliest_of_tie [tieL, tieM] 0 (by decide) ?_ ?_
  · intro b hb
    fin_cases hb <;> (rw [isWinner_false_iff]; norm_num [tieL, tieM])
  · intro c hc
    exact absurd hc (List.not_mem_nil c)

end DispatchBidder
